import Mathlib

/-!
Verification development for the log-metrics processor
(`0x03-log_parsing/0-stats.py`) of the `alx-interview` repository.

The script reads lines from stdin, validates each against the regular
expression

  ([\d\.]+)\s+-\s+\[(.*?)\]\s+"GET /projects/260 HTTP/1\.1"\s+(\d+)\s+(\d+)

via `re.match` (anchored at the start only, not at the end) on the
stripped line, accumulates `total_size`, a per-status-code counter
(only for codes in `{200, 301, 400, 401, 403, 404, 405, 500}`), and
`line_count`; it prints a report after every 10th accepted line and
from the SIGINT handler.

Modelling notes, faithful to the source:
* Characters: Python's `\d` is the Unicode category Nd and `\s` the
  Unicode whitespace class; both are modelled by their ASCII parts
  (decimal value semantics of `int` coincide on Nd, so no claim's
  status depends on the non-ASCII part of the classes).
* The regex has no backtracking choice points except the lazy group
  `\[(.*?)\]`: every `X+` in the pattern is followed by a character its
  class cannot match, so greedy matching is maximal-munch.  The lazy
  group is modelled by `findClose`, which scans for each candidate `]`
  in order and falls through to the next one when the tail fails,
  exactly as the backtracking engine does; `.` does not match a
  newline, so the scan aborts at `\n`.
* `int(match.group(3))` and `int(match.group(4))` can never raise:
  the groups are `\d+` and Python integers do not overflow, so the
  `except ValueError` branch is dead and the update block always runs
  when the regex matches.
* `should_exit` is set only inside `handle_interrupt`, which then
  calls `sys.exit(0)`; the flag is never observed by any other code
  (the `break` in `main` is unreachable), so it is not part of the
  modelled state.  The `except KeyboardInterrupt` branch of `main` is
  likewise dead, because SIGINT is routed to `handle_interrupt`.
-/

namespace LogStats

/-- ASCII part of Python's regex `\s` class (space, TAB, LF, VT, FF, CR). -/
def isPySpace (c : Char) : Bool :=
  c.toNat = 32 || c.toNat = 9 || c.toNat = 10 || c.toNat = 11 || c.toNat = 12 || c.toNat = 13

/-- ASCII part of Python's regex `\d` class. -/
def isPyDigit (c : Char) : Bool :=
  48 ≤ c.toNat && c.toNat ≤ 57

/-- Character class `[\d\.]` of the IP group: a digit or a dot. -/
def isIpChar (c : Char) : Bool :=
  isPyDigit c || c.toNat = 46

/-- Python's `str.strip()` (whitespace stripped from both ends). -/
def strip (s : List Char) : List Char :=
  ((s.dropWhile isPySpace).reverse.dropWhile isPySpace).reverse

/-- Value of `int` on a run of decimal digits (left fold, as positional value). -/
def digitsToNat (ds : List Char) : Nat :=
  ds.foldl (fun a c => a * 10 + (c.toNat - 48)) 0

/-- The literal request descriptor of the pattern, quotes included. -/
def reqLit : List Char :=
  "\"GET /projects/260 HTTP/1.1\"".toList

/-- Matcher for the pattern suffix that follows the closing bracket:
`\s+"GET /projects/260 HTTP/1\.1"\s+(\d+)\s+(\d+)`, anchored at the start
of `s` and unanchored at the end, returning the two captured numbers
(status code, byte size).  All quantifiers here are maximal-munch,
because each is followed by a character its class cannot match. -/
def tryTail (s : List Char) : Option (Nat × Nat) :=
  if s.takeWhile isPySpace = [] then none else
  let s1 := s.dropWhile isPySpace
  if reqLit.isPrefixOf s1 then
    let s2 := s1.drop reqLit.length
    if s2.takeWhile isPySpace = [] then none else
    let s3 := s2.dropWhile isPySpace
    let d1 := s3.takeWhile isPyDigit
    if d1 = [] then none else
    let s4 := s3.dropWhile isPyDigit
    if s4.takeWhile isPySpace = [] then none else
    let s5 := s4.dropWhile isPySpace
    let d2 := s5.takeWhile isPyDigit
    if d2 = [] then none else
    some (digitsToNat d1, digitsToNat d2)
  else none

/-- Backtracking search of the lazy group `(.*?)\]` followed by `tryTail`:
candidate closing brackets are tried left to right, and the group cannot
cross a newline because `.` does not match one. -/
def findClose : List Char → Option (Nat × Nat)
  | [] => none
  | c :: rest =>
    if c = ']' then
      match tryTail rest with
      | some r => some r
      | none => findClose rest
    else if c = '\n' then none
    else findClose rest

/-- Remainder of the match after the IP group: `\s+-\s+\[` then `findClose`. -/
def afterIp (s : List Char) : Option (Nat × Nat) :=
  if s.takeWhile isPySpace = [] then none else
  match s.dropWhile isPySpace with
  | [] => none
  | c :: s2 =>
    if c = '-' then
      if s2.takeWhile isPySpace = [] then none else
      match s2.dropWhile isPySpace with
      | [] => none
      | c2 :: s3 => if c2 = '[' then findClose s3 else none
    else none

/-- The whole of `self.pattern.match(line.strip())` together with the
two `int` conversions: `some (statusCode, byteSize)` when the line is
accepted, `none` when it is rejected. -/
def parseLine (line : List Char) : Option (Nat × Nat) :=
  let t := strip line
  if t.takeWhile isIpChar = [] then none
  else afterIp (t.dropWhile isIpChar)

/-- The metrics held by `LogProcessor`: `total_size`, the `status_codes`
mapping (an association list in key-insertion order, as `defaultdict`
iteration order is), and `line_count`. -/
structure AggState where
  total_size : Nat
  status_codes : List (Nat × Nat)
  line_count : Nat
deriving DecidableEq, Repr

/-- State of a fresh `LogProcessor`. -/
def initState : AggState := ⟨0, [], 0⟩

/-- The fixed whitelist `self.valid_codes`. -/
def valid_codes : List Nat := [200, 301, 400, 401, 403, 404, 405, 500]

/-- Effect of `self.status_codes[k] += 1` on a `defaultdict(int)`:
bump the entry when present, append a fresh entry `(k, 1)` otherwise. -/
def bump (m : List (Nat × Nat)) (k : Nat) : List (Nat × Nat) :=
  match m with
  | [] => [(k, 1)]
  | (k', v) :: rest => if k' = k then (k', v + 1) :: rest else (k', v) :: bump rest k

/-- Reading `self.status_codes[c]`: the stored count, `0` when absent. -/
def lookupCount (m : List (Nat × Nat)) (c : Nat) : Nat :=
  match m with
  | [] => 0
  | (k, v) :: rest => if k = c then v else lookupCount rest c

/-- Output of `print_stats` as the list of printed lines.  The leading
`""` is the `\n` at the front of `print(f"\nFile size: ...")`.  Codes are
printed in ascending order (`sorted(self.status_codes.keys())`) and only
when their count is positive. -/
def print_stats (st : AggState) : List String :=
  "" :: ("File size: " ++ toString st.total_size) ::
    (((st.status_codes.map Prod.fst).insertionSort (fun a b => a ≤ b)).filter
      (fun c => decide (0 < lookupCount st.status_codes c))).map
      (fun c => toString c ++ ": " ++ toString (lookupCount st.status_codes c))

/-- Composite effect of the update block of `process_line` on the state:
conditional status-code bump, size accumulation, line-count increment. -/
def applyRecord (st : AggState) (r : Nat × Nat) : AggState :=
  { total_size := st.total_size + r.2
    status_codes := if r.1 ∈ valid_codes then bump st.status_codes r.1 else st.status_codes
    line_count := st.line_count + 1 }

/-- One call of `process_line`: new state, plus the periodic report it
prints (at most one, after every 10th accepted line). -/
def process_line (st : AggState) (line : List Char) : AggState × List (List String) :=
  match parseLine line with
  | none => (st, [])
  | some r =>
    let st' := applyRecord st r
    if st'.line_count % 10 = 0 then (st', [print_stats st']) else (st', [])

/-- The `for line in sys.stdin` loop of `main` run to natural end of
input: final state and all reports printed.  No report is printed after
the loop (the `except KeyboardInterrupt` branch is dead code). -/
def runEof (st : AggState) : List (List Char) → AggState × List (List String)
  | [] => (st, [])
  | l :: ls =>
    let p := process_line st l
    let q := runEof p.1 ls
    (q.1, p.2 ++ q.2)

/-- One atomic statement of the update block of `process_line`.  A
CPython signal handler runs between two bytecode instructions of the
main thread, and `handle_interrupt` exits the process, so the states it
can observe are exactly the states between these statements (a handler
entered in the middle of one `+=` sees the not-yet-stored old value,
which is the state before that statement). -/
inductive Micro where
  | bumpStatus (c : Nat)
  | addSize (n : Nat)
  | incCount
  | cadenceCheck
deriving DecidableEq, Repr

/-- Effect of one statement of the update block, with the report the
`cadenceCheck` statement may print. -/
def applyMicro (st : AggState) : Micro → AggState × List (List String)
  | .bumpStatus c =>
    ({ st with status_codes := if c ∈ valid_codes then bump st.status_codes c else st.status_codes }, [])
  | .addSize n => ({ st with total_size := st.total_size + n }, [])
  | .incCount => ({ st with line_count := st.line_count + 1 }, [])
  | .cadenceCheck => (st, if st.line_count % 10 = 0 then [print_stats st] else [])

/-- The statements `process_line` executes for one input line, in
source order: nothing for a rejected line, the four-statement update
block for an accepted one. -/
def microsOf (line : List Char) : List Micro :=
  match parseLine line with
  | none => []
  | some r => [.bumpStatus r.1, .addSize r.2, .incCount, .cadenceCheck]

/-- All statements a run over the given lines executes, in order. -/
def microTrace (lines : List (List Char)) : List Micro :=
  (lines.map microsOf).flatten

/-- Execute a sequence of statements, collecting the periodic reports. -/
def runMicros (st : AggState) : List Micro → AggState × List (List String)
  | [] => (st, [])
  | m :: ms =>
    let p := applyMicro st m
    let q := runMicros p.1 ms
    (q.1, p.2 ++ q.2)

/-- A run interrupted by SIGINT after the first `k` statements:
`handle_interrupt` sets `should_exit` (never observed), prints the
final report from the current state, and exits, so the output is the
periodic reports so far followed by exactly one final report. -/
def interruptRun (lines : List (List Char)) (k : Nat) : AggState × List (List String) :=
  let p := runMicros initState ((microTrace lines).take k)
  (p.1, p.2 ++ [print_stats p.1])

/-- Number of statements executed by the first `j` lines: the interrupt
points at which no record is partially applied. -/
def microPrefixLen (lines : List (List Char)) (j : Nat) : Nat :=
  (microTrace (lines.take j)).length

/-- Number of grammar-accepted lines in a list. -/
def acceptedCount (lines : List (List Char)) : Nat :=
  lines.countP (fun l => (parseLine l).isSome)

/-- Byte contribution of one line: its size field if accepted, else zero. -/
def byteOf (line : List Char) : Nat :=
  match parseLine line with
  | none => 0
  | some r => r.2

/-- A well-formed log line used by concrete witnesses. -/
def sampleValid : List Char :=
  "127.0.0.1 - [2024-01-01] \"GET /projects/260 HTTP/1.1\" 200 100".toList

/-- A malformed line used by concrete witnesses. -/
def sampleBad : List Char :=
  "garbage line".toList

/-- A line whose status code 999 is outside the whitelist, with size 50. -/
def sample999 : List Char :=
  "127.0.0.1 - [2024-01-01] \"GET /projects/260 HTTP/1.1\" 999 50".toList

/-- A line that the pattern accepts although it does not consist of the
grammar's tokens alone: trailing content follows the byte-size field. -/
def sampleTrailing : List Char :=
  "1.2.3.4 - [2024-01-01] \"GET /projects/260 HTTP/1.1\" 200 100 xyz".toList

/-- Everything after the IP token in a canonical well-formed line. -/
def stdRest : List Char :=
  " - [2024-01-01] \"GET /projects/260 HTTP/1.1\" 200 100".toList

/-- Well-formedness of the status-code map maintained by the program:
keys are distinct, every key is whitelisted, every stored count is
positive. -/
def GoodMap (m : List (Nat × Nat)) : Prop :=
  (m.map Prod.fst).Nodup ∧ ∀ p ∈ m, p.1 ∈ valid_codes ∧ 0 < p.2

/-- Rendering contract exactly as the specification words it: the
report consists of the file-size line followed by one line per status
code with positive count, in strictly ascending code order, with no
other lines. -/
def SpecRendered (st : AggState) : Prop :=
  ∃ codes : List Nat,
    codes.Pairwise (fun a b => a < b) ∧
    (∀ c, c ∈ codes ↔ 0 < lookupCount st.status_codes c) ∧
    print_stats st = ("File size: " ++ toString st.total_size) ::
      codes.map (fun c => toString c ++ ": " ++ toString (lookupCount st.status_codes c))

/-- A nonempty run of characters that all satisfy the class `p`. -/
def Run (p : Char → Bool) (l : List Char) : Prop :=
  l ≠ [] ∧ ∀ c ∈ l, p c = true

/-- Declarative decomposition of `s` as the pattern's token sequence
followed by the remainder `rest`: an IP token, whitespace, `-`,
whitespace, `[`, a bracketed token without newline, `]`, whitespace,
the request literal, whitespace, status digits, whitespace, size
digits, then `rest`. -/
def GrammarAt (s rest : List Char) : Prop :=
  ∃ ip w1 w2 date w3 w4 st w5 sz,
    Run isIpChar ip ∧ Run isPySpace w1 ∧ Run isPySpace w2 ∧
    ('\n' ∉ date) ∧ Run isPySpace w3 ∧ Run isPySpace w4 ∧
    Run isPyDigit st ∧ Run isPySpace w5 ∧ Run isPyDigit sz ∧
    s = ip ++ (w1 ++ '-' :: (w2 ++ '[' :: (date ++ ']' ::
      (w3 ++ (reqLit ++ (w4 ++ (st ++ (w5 ++ (sz ++ rest)))))))))

/-- Claim C4's reading of the grammar: the whole line consists of
exactly the token sequence, with nothing after the byte-size field. -/
def SpecConsists (s : List Char) : Prop := GrammarAt s []

/-- The acceptance condition the code actually implements: some prefix
of the line (anchored at the start) is the token sequence, the
remainder being arbitrary. -/
def MatchPrefix (s : List Char) : Prop := ∃ rest, GrammarAt s rest

theorem runEof_nil (st : AggState) : runEof st [] = (st, []) := rfl

theorem runEof_cons (st : AggState) (l : List Char) (ls : List (List Char)) :
    runEof st (l :: ls) =
      ((runEof (process_line st l).1 ls).1,
        (process_line st l).2 ++ (runEof (process_line st l).1 ls).2) := rfl

theorem runEof_cons_fst (st : AggState) (l : List Char) (ls : List (List Char)) :
    (runEof st (l :: ls)).1 = (runEof (process_line st l).1 ls).1 := rfl

theorem runEof_cons_snd (st : AggState) (l : List Char) (ls : List (List Char)) :
    (runEof st (l :: ls)).2 =
      (process_line st l).2 ++ (runEof (process_line st l).1 ls).2 := rfl

theorem process_line_of_none {l : List Char} (st : AggState) (h : parseLine l = none) :
    process_line st l = (st, []) := by
  simp [process_line, h]

theorem process_line_fst_of_some {l : List Char} {r : Nat × Nat} (st : AggState)
    (h : parseLine l = some r) : (process_line st l).1 = applyRecord st r := by
  simp only [process_line, h]
  split <;> rfl

theorem process_line_snd_of_some {l : List Char} {r : Nat × Nat} (st : AggState)
    (h : parseLine l = some r) :
    (process_line st l).2 =
      if (st.line_count + 1) % 10 = 0 then [print_stats (applyRecord st r)] else [] := by
  simp only [process_line, h, applyRecord]
  split <;> simp_all [applyRecord]

theorem process_line_total (st : AggState) (l : List Char) :
    (process_line st l).1.total_size = st.total_size + byteOf l := by
  cases h : parseLine l with
  | none => simp [process_line_of_none st h, byteOf, h]
  | some r => simp [process_line_fst_of_some st h, byteOf, h, applyRecord]

theorem process_line_count (st : AggState) (l : List Char) :
    (process_line st l).1.line_count =
      st.line_count + (if (parseLine l).isSome then 1 else 0) := by
  cases h : parseLine l with
  | none => simp [process_line_of_none st h, h]
  | some r => simp [process_line_fst_of_some st h, h, applyRecord]

theorem process_line_codes (st : AggState) (l : List Char) :
    (process_line st l).1.status_codes =
      match parseLine l with
      | none => st.status_codes
      | some r => if r.1 ∈ valid_codes then bump st.status_codes r.1 else st.status_codes := by
  cases h : parseLine l with
  | none => simp [process_line_of_none st h, h]
  | some r => simp [process_line_fst_of_some st h, h, applyRecord]

theorem lookupCount_bump_self (m : List (Nat × Nat)) (k : Nat) :
    lookupCount (bump m k) k = lookupCount m k + 1 := by
  induction m with
  | nil => simp [bump, lookupCount]
  | cons p rest ih =>
    obtain ⟨k', v⟩ := p
    by_cases h : k' = k
    · subst h; simp [bump, lookupCount]
    · simp [bump, lookupCount, h, ih]

theorem lookupCount_bump_ne (m : List (Nat × Nat)) {k c : Nat} (h : k ≠ c) :
    lookupCount (bump m k) c = lookupCount m c := by
  induction m with
  | nil => simp [bump, lookupCount, h]
  | cons p rest ih =>
    obtain ⟨k', v⟩ := p
    by_cases h2 : k' = k
    · subst h2; simp [bump, lookupCount, h]
    · simp [bump, lookupCount, h2, ih]

theorem lookupCount_bump_le (m : List (Nat × Nat)) (k c : Nat) :
    lookupCount m c ≤ lookupCount (bump m k) c := by
  by_cases h : k = c
  · subst h; rw [lookupCount_bump_self]; omega
  · rw [lookupCount_bump_ne m h]

theorem runEof_total_size (lines : List (List Char)) : ∀ st : AggState,
    (runEof st lines).1.total_size = st.total_size + (lines.map byteOf).sum := by
  induction lines with
  | nil => intro st; simp [runEof]
  | cons l ls ih =>
    intro st
    rw [runEof_cons]
    simp only [List.map_cons, List.sum_cons]
    rw [ih, process_line_total]
    omega

theorem runEof_line_count (lines : List (List Char)) : ∀ st : AggState,
    (runEof st lines).1.line_count = st.line_count + acceptedCount lines := by
  induction lines with
  | nil => intro st; simp [runEof, acceptedCount]
  | cons l ls ih =>
    intro st
    rw [runEof_cons, ih, process_line_count]
    simp only [acceptedCount, List.countP_cons]
    cases h : (parseLine l).isSome
    · simp [h]
    · simp [h]
      omega

theorem lookupCount_eq_zero_of_not_mem {m : List (Nat × Nat)} {c : Nat} :
    c ∉ m.map Prod.fst → lookupCount m c = 0 := by
  induction m with
  | nil => intro _; rfl
  | cons p rest ih =>
    obtain ⟨k, v⟩ := p
    intro h
    simp only [List.map_cons, List.mem_cons, not_or] at h
    have hkc : ¬ k = c := fun hh => h.1 hh.symm
    simp only [lookupCount, if_neg hkc]
    exact ih h.2

theorem keys_bump (m : List (Nat × Nat)) (k : Nat) :
    (bump m k).map Prod.fst =
      if k ∈ m.map Prod.fst then m.map Prod.fst else m.map Prod.fst ++ [k] := by
  induction m with
  | nil => simp [bump]
  | cons p rest ih =>
    obtain ⟨k', v⟩ := p
    by_cases h : k' = k
    · subst h; simp [bump]
    · have hkk : ¬ k = k' := fun hh => h hh.symm
      simp only [bump, if_neg h, List.map_cons, ih, List.mem_cons]
      by_cases h2 : k ∈ rest.map Prod.fst
      · simp [h2, hkk]
      · simp [h2, hkk]

theorem mem_bump_cases {m : List (Nat × Nat)} {k : Nat} {p : Nat × Nat} :
    p ∈ bump m k → p ∈ m ∨ (p.1 = k ∧ 0 < p.2) := by
  induction m with
  | nil =>
    intro h
    simp only [bump, List.mem_singleton] at h
    subst h; right; exact ⟨rfl, Nat.zero_lt_one⟩
  | cons q rest ih =>
    obtain ⟨k', v⟩ := q
    intro h
    by_cases h2 : k' = k
    · subst h2
      simp only [bump] at h
      rw [if_true] at h
      rw [List.mem_cons] at h
      rcases h with h | h
      · subst h; right; exact ⟨rfl, Nat.succ_pos v⟩
      · left; exact List.mem_cons_of_mem _ h
    · simp only [bump, if_neg h2, List.mem_cons] at h
      rcases h with h | h
      · subst h; left; exact List.mem_cons_self _ _
      · rcases ih h with h3 | h3
        · left; exact List.mem_cons_of_mem _ h3
        · right; exact h3

theorem goodMap_bump {m : List (Nat × Nat)} {k : Nat} (hm : GoodMap m)
    (hk : k ∈ valid_codes) : GoodMap (bump m k) := by
  obtain ⟨hnd, hall⟩ := hm
  constructor
  · rw [keys_bump]
    by_cases h : k ∈ m.map Prod.fst
    · simpa [h] using hnd
    · rw [if_neg h, List.nodup_append]
      refine ⟨hnd, List.nodup_singleton k, ?_⟩
      intro a ha hb
      rw [List.mem_singleton] at hb
      subst hb
      exact h ha
  · intro p hp
    rcases mem_bump_cases hp with h | h
    · exact hall p h
    · exact ⟨h.1 ▸ hk, h.2⟩

theorem goodMap_process_line {st : AggState} (hm : GoodMap st.status_codes)
    (l : List Char) : GoodMap (process_line st l).1.status_codes := by
  rw [process_line_codes]
  cases h : parseLine l with
  | none => exact hm
  | some r =>
    simp only
    split
    · exact goodMap_bump hm (by assumption)
    · exact hm

theorem goodMap_runEof (lines : List (List Char)) : ∀ st : AggState,
    GoodMap st.status_codes → GoodMap (runEof st lines).1.status_codes := by
  induction lines with
  | nil => intro st h; exact h
  | cons l ls ih =>
    intro st h
    rw [runEof_cons]
    exact ih _ (goodMap_process_line h l)

theorem goodMap_init : GoodMap initState.status_codes := by
  constructor <;> simp [initState]

theorem goodMap_mem_iff_pos {m : List (Nat × Nat)} (hm : GoodMap m) (c : Nat) :
    c ∈ m.map Prod.fst ↔ 0 < lookupCount m c := by
  induction m with
  | nil => simp [lookupCount]
  | cons p rest ih =>
    obtain ⟨k, v⟩ := p
    obtain ⟨hnd, hall⟩ := hm
    have hrest : GoodMap rest :=
      ⟨(List.nodup_cons.mp (by simpa using hnd)).2,
        fun q hq => hall q (List.mem_cons_of_mem _ hq)⟩
    by_cases h : k = c
    · subst h
      simp only [List.map_cons, List.mem_cons, lookupCount, if_pos rfl]
      have hv := (hall (k, v) (List.mem_cons_self _ _)).2
      simp [hv]
    · rw [List.map_cons]
      have hlk : lookupCount ((k, v) :: rest) c = lookupCount rest c := by
        simp [lookupCount, h]
      rw [hlk, ← ih hrest, List.mem_cons]
      constructor
      · rintro (hh | hh)
        · exact absurd hh.symm h
        · exact hh
      · exact Or.inr

theorem runEof_reports (lines : List (List Char)) : ∀ st : AggState,
    (runEof st lines).2 =
      (List.range lines.length).filterMap (fun j =>
        if ((parseLine (lines.getD j [])).isSome = true) ∧
            (st.line_count + acceptedCount (lines.take (j + 1))) % 10 = 0 then
          some (print_stats (runEof st (lines.take (j + 1))).1)
        else none) := by
  induction lines with
  | nil => intro st; simp [runEof]
  | cons l ls ih =>
    intro st
    rw [runEof_cons_snd, List.length_cons, List.range_succ_eq_map, List.filterMap_cons,
      List.filterMap_map]
    cases h : parseLine l with
    | none =>
      rw [process_line_of_none st h]
      simp only [List.getD_cons_zero, h, Option.isSome_none, Bool.false_eq_true, false_and,
        if_false]
      rw [ih st, List.nil_append]
      congr 1
      funext j
      have hacc : acceptedCount (l :: ls.take (j + 1)) =
          acceptedCount (ls.take (j + 1)) := by
        simp [acceptedCount, List.countP_cons, h]
      simp only [Function.comp_apply, List.getD_cons_succ, List.take_succ_cons,
        runEof_cons_fst, process_line_of_none st h, hacc]
    | some r =>
      rw [process_line_fst_of_some st h, process_line_snd_of_some st h]
      have hacc1 : acceptedCount ((l :: ls).take 1) = 1 := by
        simp [acceptedCount, List.countP_cons, h]
      have hrun1 : (runEof st ((l :: ls).take 1)).1 = applyRecord st r := by
        simp only [List.take_succ_cons, List.take_zero, runEof_cons_fst, runEof_nil,
          process_line_fst_of_some st h]
      simp only [List.getD_cons_zero, h, Option.isSome_some, true_and, hacc1, hrun1]
      rw [ih (applyRecord st r)]
      have hfun : ∀ j,
          (if ((parseLine ((l :: ls).getD (j + 1) [])).isSome = true) ∧
              (st.line_count + acceptedCount ((l :: ls).take (j + 1 + 1))) % 10 = 0 then
            some (print_stats (runEof st ((l :: ls).take (j + 1 + 1))).1)
          else none) =
          (if ((parseLine (ls.getD j [])).isSome = true) ∧
              ((applyRecord st r).line_count + acceptedCount (ls.take (j + 1))) % 10 = 0 then
            some (print_stats (runEof (applyRecord st r) (ls.take (j + 1))).1)
          else none) := by
        intro j
        have hacc : st.line_count + acceptedCount ((l :: ls).take (j + 1 + 1)) =
            (applyRecord st r).line_count + acceptedCount (ls.take (j + 1)) := by
          rw [List.take_succ_cons]
          simp only [acceptedCount, List.countP_cons, h, Option.isSome_some, applyRecord]
          simp
          omega
        have hst : (runEof st ((l :: ls).take (j + 1 + 1))).1 =
            (runEof (applyRecord st r) (ls.take (j + 1))).1 := by
          rw [List.take_succ_cons, runEof_cons_fst, process_line_fst_of_some st h]
        rw [List.getD_cons_succ, hacc, hst]
      have hsplit : (if (st.line_count + 1) % 10 = 0
            then [print_stats (applyRecord st r)] else []) ++
            (List.range ls.length).filterMap (fun j =>
              if ((parseLine (ls.getD j [])).isSome = true) ∧
                  ((applyRecord st r).line_count + acceptedCount (ls.take (j + 1))) % 10 = 0 then
                some (print_stats (runEof (applyRecord st r) (ls.take (j + 1))).1)
              else none) =
          (if (st.line_count + 1) % 10 = 0
            then print_stats (applyRecord st r) ::
              (List.range ls.length).filterMap (fun j =>
                if ((parseLine (ls.getD j [])).isSome = true) ∧
                    ((applyRecord st r).line_count + acceptedCount (ls.take (j + 1))) % 10 = 0 then
                  some (print_stats (runEof (applyRecord st r) (ls.take (j + 1))).1)
                else none)
            else (List.range ls.length).filterMap (fun j =>
              if ((parseLine (ls.getD j [])).isSome = true) ∧
                  ((applyRecord st r).line_count + acceptedCount (ls.take (j + 1))) % 10 = 0 then
                some (print_stats (runEof (applyRecord st r) (ls.take (j + 1))).1)
              else none)) := by
        split <;> simp
      rw [hsplit]
      have hfm : (List.range ls.length).filterMap
            ((fun j =>
              if ((parseLine ((l :: ls).getD j [])).isSome = true) ∧
                  (st.line_count + acceptedCount ((l :: ls).take (j + 1))) % 10 = 0 then
                some (print_stats (runEof st ((l :: ls).take (j + 1))).1)
              else none) ∘ Nat.succ) =
          (List.range ls.length).filterMap (fun j =>
            if ((parseLine (ls.getD j [])).isSome = true) ∧
                ((applyRecord st r).line_count + acceptedCount (ls.take (j + 1))) % 10 = 0 then
              some (print_stats (runEof (applyRecord st r) (ls.take (j + 1))).1)
            else none) := by
        congr 1
        funext j
        exact hfun j
      rw [hfm]
      split <;> rfl

theorem runMicros_nil (st : AggState) : runMicros st [] = (st, []) := rfl

theorem runMicros_cons (st : AggState) (m : Micro) (ms : List Micro) :
    runMicros st (m :: ms) =
      ((runMicros (applyMicro st m).1 ms).1,
        (applyMicro st m).2 ++ (runMicros (applyMicro st m).1 ms).2) := rfl

theorem runMicros_append (ms1 : List Micro) : ∀ (ms2 : List Micro) (st : AggState),
    runMicros st (ms1 ++ ms2) =
      ((runMicros (runMicros st ms1).1 ms2).1,
        (runMicros st ms1).2 ++ (runMicros (runMicros st ms1).1 ms2).2) := by
  induction ms1 with
  | nil => intro ms2 st; simp [runMicros]
  | cons m ms ih =>
    intro ms2 st
    rw [List.cons_append, runMicros_cons, runMicros_cons, ih ms2 (applyMicro st m).1]
    simp

theorem runMicros_microsOf (st : AggState) (l : List Char) :
    runMicros st (microsOf l) = process_line st l := by
  cases h : parseLine l with
  | none => simp [microsOf, h, runMicros, process_line]
  | some r =>
    simp only [microsOf, h, runMicros_cons, runMicros_nil, applyMicro, process_line]
    cases st with
    | mk ts sc lc =>
      simp only [applyRecord]
      split <;> split <;> rfl

theorem runMicros_trace (lines : List (List Char)) : ∀ st : AggState,
    runMicros st (microTrace lines) = runEof st lines := by
  induction lines with
  | nil => intro st; rfl
  | cons l ls ih =>
    intro st
    have hflat : microTrace (l :: ls) = microsOf l ++ microTrace ls := by
      simp [microTrace]
    rw [hflat, runMicros_append, runMicros_microsOf, ih, runEof_cons]

theorem microTrace_take (lines : List (List Char)) (j : Nat) :
    (microTrace lines).take (microPrefixLen lines j) = microTrace (lines.take j) := by
  have hsplit : microTrace lines = microTrace (lines.take j) ++ microTrace (lines.drop j) := by
    simp only [microTrace]
    rw [← List.flatten_append, ← List.map_append, List.take_append_drop]
  rw [microPrefixLen, hsplit, List.take_left]

theorem space_not_ip {c : Char} (h : isPySpace c = true) : isIpChar c = false := by
  simp [isPySpace] at h
  simp [isIpChar, isPyDigit]
  omega

theorem ip_not_space {c : Char} (h : isIpChar c = true) : isPySpace c = false := by
  simp [isIpChar, isPyDigit] at h
  simp [isPySpace]
  omega

theorem digit_not_space {c : Char} (h : isPyDigit c = true) : isPySpace c = false := by
  simp [isPyDigit] at h
  simp [isPySpace]
  omega

theorem space_not_digit {c : Char} (h : isPySpace c = true) : isPyDigit c = false := by
  simp [isPySpace] at h
  simp [isPyDigit]
  omega

theorem takeWhile_append_all {p : Char → Bool} {xs : List Char} (ys : List Char)
    (h : ∀ c ∈ xs, p c = true) : (xs ++ ys).takeWhile p = xs ++ ys.takeWhile p := by
  induction xs with
  | nil => simp
  | cons a l ih =>
    rw [List.cons_append, List.takeWhile_cons_of_pos (h a (List.mem_cons_self a l)),
      ih (fun c hc => h c (List.mem_cons_of_mem a hc)), List.cons_append]

theorem dropWhile_append_all {p : Char → Bool} {xs : List Char} (ys : List Char)
    (h : ∀ c ∈ xs, p c = true) : (xs ++ ys).dropWhile p = ys.dropWhile p := by
  induction xs with
  | nil => simp
  | cons a l ih =>
    rw [List.cons_append, List.dropWhile_cons_of_pos (h a (List.mem_cons_self a l)),
      ih (fun c hc => h c (List.mem_cons_of_mem a hc))]

theorem takeWhile_append_stop {p : Char → Bool} {xs ys : List Char}
    (h : ∀ c ∈ xs, p c = true) (hy : ys.takeWhile p = []) :
    (xs ++ ys).takeWhile p = xs := by
  rw [takeWhile_append_all ys h, hy, List.append_nil]

theorem dropWhile_append_stop {p : Char → Bool} {xs ys : List Char}
    (h : ∀ c ∈ xs, p c = true) (hy : ys.dropWhile p = ys) :
    (xs ++ ys).dropWhile p = ys := by
  rw [dropWhile_append_all ys h, hy]

theorem run_takeWhile {p : Char → Bool} {s : List Char} (h : s.takeWhile p ≠ []) :
    Run p (s.takeWhile p) :=
  ⟨h, fun _ hc => List.mem_takeWhile_imp hc⟩

theorem tryTail_sound {t : List Char} {r : Nat × Nat} (h : tryTail t = some r) :
    ∃ w3 w4 st w5 sz rest, Run isPySpace w3 ∧ Run isPySpace w4 ∧ Run isPyDigit st ∧
      Run isPySpace w5 ∧ Run isPyDigit sz ∧
      t = w3 ++ (reqLit ++ (w4 ++ (st ++ (w5 ++ (sz ++ rest))))) := by
  simp only [tryTail] at h
  split_ifs at h with h1 h2 h3 h4 h5 h6
  obtain ⟨u, hu⟩ := List.isPrefixOf_iff_prefix.mp h2
  have hdrop : (t.dropWhile isPySpace).drop reqLit.length = u := by
    rw [← hu, List.drop_left]
  rw [hdrop] at h3 h4 h5 h6
  refine ⟨t.takeWhile isPySpace, u.takeWhile isPySpace,
    (u.dropWhile isPySpace).takeWhile isPyDigit,
    ((u.dropWhile isPySpace).dropWhile isPyDigit).takeWhile isPySpace,
    (((u.dropWhile isPySpace).dropWhile isPyDigit).dropWhile isPySpace).takeWhile isPyDigit,
    (((u.dropWhile isPySpace).dropWhile isPyDigit).dropWhile isPySpace).dropWhile isPyDigit,
    run_takeWhile h1, run_takeWhile h3, run_takeWhile h4, run_takeWhile h5,
    run_takeWhile h6, ?_⟩
  simp only [List.takeWhile_append_dropWhile, hu]

theorem tryTail_complete {w3 w4 st w5 sz : List Char} (rest : List Char)
    (hw3 : Run isPySpace w3) (hw4 : Run isPySpace w4) (hst : Run isPyDigit st)
    (hw5 : Run isPySpace w5) (hsz : Run isPyDigit sz) :
    tryTail (w3 ++ (reqLit ++ (w4 ++ (st ++ (w5 ++ (sz ++ rest)))))) ≠ none := by
  obtain ⟨cs, st', hst_eq⟩ := List.exists_cons_of_ne_nil hst.1
  obtain ⟨cz, sz', hsz_eq⟩ := List.exists_cons_of_ne_nil hsz.1
  obtain ⟨c5, w5', hw5_eq⟩ := List.exists_cons_of_ne_nil hw5.1
  have hcs : isPySpace cs = false :=
    digit_not_space (hst.2 cs (hst_eq ▸ List.mem_cons_self cs st'))
  have hcz : isPySpace cz = false :=
    digit_not_space (hsz.2 cz (hsz_eq ▸ List.mem_cons_self cz sz'))
  have hc5 : isPyDigit c5 = false :=
    space_not_digit (hw5.2 c5 (hw5_eq ▸ List.mem_cons_self c5 w5'))
  have e1 : (w3 ++ (reqLit ++ (w4 ++ (st ++ (w5 ++ (sz ++ rest)))))).takeWhile isPySpace
      = w3 := takeWhile_append_stop hw3.2 rfl
  have e2 : (w3 ++ (reqLit ++ (w4 ++ (st ++ (w5 ++ (sz ++ rest)))))).dropWhile isPySpace
      = reqLit ++ (w4 ++ (st ++ (w5 ++ (sz ++ rest)))) := dropWhile_append_stop hw3.2 rfl
  have e3 : reqLit.isPrefixOf (reqLit ++ (w4 ++ (st ++ (w5 ++ (sz ++ rest))))) = true :=
    List.isPrefixOf_iff_prefix.mpr ⟨_, rfl⟩
  have e4 : (reqLit ++ (w4 ++ (st ++ (w5 ++ (sz ++ rest))))).drop reqLit.length
      = w4 ++ (st ++ (w5 ++ (sz ++ rest))) := List.drop_left _ _
  have e5 : (w4 ++ (st ++ (w5 ++ (sz ++ rest)))).takeWhile isPySpace = w4 := by
    apply takeWhile_append_stop hw4.2
    rw [hst_eq, List.cons_append]
    exact List.takeWhile_cons_of_neg (by simp [hcs])
  have e6 : (w4 ++ (st ++ (w5 ++ (sz ++ rest)))).dropWhile isPySpace
      = st ++ (w5 ++ (sz ++ rest)) := by
    apply dropWhile_append_stop hw4.2
    rw [hst_eq, List.cons_append]
    exact List.dropWhile_cons_of_neg (by simp [hcs])
  have e7 : (st ++ (w5 ++ (sz ++ rest))).takeWhile isPyDigit = st := by
    apply takeWhile_append_stop hst.2
    rw [hw5_eq, List.cons_append]
    exact List.takeWhile_cons_of_neg (by simp [hc5])
  have e8 : (st ++ (w5 ++ (sz ++ rest))).dropWhile isPyDigit = w5 ++ (sz ++ rest) := by
    apply dropWhile_append_stop hst.2
    rw [hw5_eq, List.cons_append]
    exact List.dropWhile_cons_of_neg (by simp [hc5])
  have e9 : (w5 ++ (sz ++ rest)).takeWhile isPySpace = w5 := by
    apply takeWhile_append_stop hw5.2
    rw [hsz_eq, List.cons_append]
    exact List.takeWhile_cons_of_neg (by simp [hcz])
  have e10 : (w5 ++ (sz ++ rest)).dropWhile isPySpace = sz ++ rest := by
    apply dropWhile_append_stop hw5.2
    rw [hsz_eq, List.cons_append]
    exact List.dropWhile_cons_of_neg (by simp [hcz])
  have e11 : (sz ++ rest).takeWhile isPyDigit = sz ++ rest.takeWhile isPyDigit :=
    takeWhile_append_all rest hsz.2
  have e12 : sz ++ rest.takeWhile isPyDigit ≠ [] :=
    List.append_ne_nil_of_left_ne_nil hsz.1 _
  simp only [tryTail, e1, e2, e3, e4, e5, e6, e7, e8, e9, e10, e11, if_true]
  simp [hw3.1, hw4.1, hst.1, hw5.1, e12]

theorem findClose_sound : ∀ {s : List Char} {r : Nat × Nat}, findClose s = some r →
    ∃ date tail, ('\n' ∉ date) ∧ tryTail tail = some r ∧ s = date ++ ']' :: tail := by
  intro s
  induction s with
  | nil => intro r h; exact Option.noConfusion h
  | cons c rest ih =>
    intro r h
    by_cases hc : c = ']'
    · subst hc
      cases htt : tryTail rest with
      | some r2 =>
        simp only [findClose, htt, if_true] at h
        injection h with h2
        exact ⟨[], rest, by simp, h2 ▸ htt, rfl⟩
      | none =>
        simp only [findClose, htt] at h
        rw [if_true] at h
        obtain ⟨date, tail, hnl, htail, heq⟩ := ih h
        refine ⟨']' :: date, tail, ?_, htail, by rw [heq, List.cons_append]⟩
        intro hm
        rcases List.mem_cons.mp hm with hm | hm
        · exact absurd hm (by decide)
        · exact hnl hm
    · by_cases hn : c = '\n'
      · subst hn
        simp only [findClose, if_neg hc] at h
        rw [if_true] at h
        exact Option.noConfusion h
      · simp only [findClose, if_neg hc, if_neg hn] at h
        obtain ⟨date, tail, hnl, htail, heq⟩ := ih h
        refine ⟨c :: date, tail, ?_, htail, by rw [heq, List.cons_append]⟩
        intro hm
        rcases List.mem_cons.mp hm with hm | hm
        · exact hn hm.symm
        · exact hnl hm

theorem findClose_complete : ∀ {date : List Char} (tail : List Char),
    ('\n' ∉ date) → tryTail tail ≠ none → findClose (date ++ ']' :: tail) ≠ none := by
  intro date
  induction date with
  | nil =>
    intro tail _ htt
    cases h : tryTail tail with
    | none => exact absurd h htt
    | some r => simp [findClose, h]
  | cons c date' ih =>
    intro tail hnl htt
    rw [List.cons_append]
    by_cases hc : c = ']'
    · subst hc
      cases h : tryTail (date' ++ ']' :: tail) with
      | some r => simp [findClose, h]
      | none =>
        simp only [findClose, h]
        rw [if_true]
        exact ih tail (fun hm => hnl (List.mem_cons_of_mem _ hm)) htt
    · have hn : ¬ c = '\n' := by
        intro hh
        exact hnl (hh ▸ List.mem_cons_self c date')
      simp only [findClose, if_neg hc, if_neg hn]
      exact ih tail (fun hm => hnl (List.mem_cons_of_mem _ hm)) htt

theorem afterIp_sound {s : List Char} {r : Nat × Nat} (h : afterIp s = some r) :
    ∃ w1 w2 rest3, Run isPySpace w1 ∧ Run isPySpace w2 ∧ findClose rest3 = some r ∧
      s = w1 ++ '-' :: (w2 ++ '[' :: rest3) := by
  by_cases h1 : s.takeWhile isPySpace = []
  · simp [afterIp, h1] at h
  · cases hd : s.dropWhile isPySpace with
    | nil => simp [afterIp, h1, hd] at h
    | cons c s2 =>
      by_cases hc : c = '-'
      · subst hc
        by_cases h2 : s2.takeWhile isPySpace = []
        · simp [afterIp, h1, hd, h2] at h
        · cases hd2 : s2.dropWhile isPySpace with
          | nil => simp [afterIp, h1, hd, h2, hd2] at h
          | cons c2 s3 =>
            by_cases hc2 : c2 = '['
            · subst hc2
              have hfc : findClose s3 = some r := by
                simpa [afterIp, h1, hd, h2, hd2] using h
              refine ⟨s.takeWhile isPySpace, s2.takeWhile isPySpace, s3,
                run_takeWhile h1, run_takeWhile h2, hfc, ?_⟩
              have e2 : s2.takeWhile isPySpace ++ '[' :: s3 = s2 := by
                rw [← hd2, List.takeWhile_append_dropWhile]
              rw [e2, ← hd, List.takeWhile_append_dropWhile]
            · simp [afterIp, h1, hd, h2, hd2, hc2] at h
      · simp [afterIp, h1, hd, hc] at h

theorem afterIp_complete {w1 w2 : List Char} (rest3 : List Char)
    (hw1 : Run isPySpace w1) (hw2 : Run isPySpace w2) (hfc : findClose rest3 ≠ none) :
    afterIp (w1 ++ '-' :: (w2 ++ '[' :: rest3)) ≠ none := by
  have e1 : (w1 ++ '-' :: (w2 ++ '[' :: rest3)).takeWhile isPySpace = w1 :=
    takeWhile_append_stop hw1.2 (List.takeWhile_cons_of_neg (by decide))
  have e2 : (w1 ++ '-' :: (w2 ++ '[' :: rest3)).dropWhile isPySpace
      = '-' :: (w2 ++ '[' :: rest3) :=
    dropWhile_append_stop hw1.2 (List.dropWhile_cons_of_neg (by decide))
  have e3 : (w2 ++ '[' :: rest3).takeWhile isPySpace = w2 :=
    takeWhile_append_stop hw2.2 (List.takeWhile_cons_of_neg (by decide))
  have e4 : (w2 ++ '[' :: rest3).dropWhile isPySpace = '[' :: rest3 :=
    dropWhile_append_stop hw2.2 (List.dropWhile_cons_of_neg (by decide))
  simp only [afterIp, e1, e2, e3, e4]
  simp [hw1.1, hw2.1]
  exact fun hh => hfc hh

theorem dropWhile_of_takeWhile_nil {p : Char → Bool} :
    ∀ {s : List Char}, s.takeWhile p = [] → s.dropWhile p = s := by
  intro s
  cases s with
  | nil => intro _; rfl
  | cons a l =>
    intro h
    by_cases hp : p a
    · rw [List.takeWhile_cons_of_pos hp] at h
      exact absurd h (by simp)
    · exact List.dropWhile_cons_of_neg hp

theorem strip_eq_self {s : List Char} (hhead : s.takeWhile isPySpace = [])
    (hlast : s.reverse.takeWhile isPySpace = []) : strip s = s := by
  rw [strip, dropWhile_of_takeWhile_nil hhead, dropWhile_of_takeWhile_nil hlast,
    List.reverse_reverse]

theorem parseLine_sound {line : List Char} {r : Nat × Nat} (h : parseLine line = some r) :
    MatchPrefix (strip line) := by
  simp only [parseLine] at h
  by_cases h1 : (strip line).takeWhile isIpChar = []
  · rw [if_pos h1] at h; exact Option.noConfusion h
  · rw [if_neg h1] at h
    obtain ⟨w1, w2, rest3, hw1, hw2, hfc, heq⟩ := afterIp_sound h
    obtain ⟨date, tail, hnl, htt, heq2⟩ := findClose_sound hfc
    obtain ⟨w3, w4, st, w5, sz, rest, hw3, hw4, hst, hw5, hsz, heq3⟩ := tryTail_sound htt
    refine ⟨rest, (strip line).takeWhile isIpChar, w1, w2, date, w3, w4, st, w5, sz,
      run_takeWhile h1, hw1, hw2, hnl, hw3, hw4, hst, hw5, hsz, ?_⟩
    rw [← heq3, ← heq2, ← heq, List.takeWhile_append_dropWhile]

theorem parseLine_complete {line : List Char} (h : MatchPrefix (strip line)) :
    parseLine line ≠ none := by
  obtain ⟨rest, ip, w1, w2, date, w3, w4, st, w5, sz,
    hip, hw1, hw2, hnl, hw3, hw4, hst, hw5, hsz, heq⟩ := h
  obtain ⟨c1, w1', hw1_eq⟩ := List.exists_cons_of_ne_nil hw1.1
  have hc1 : isIpChar c1 = false :=
    space_not_ip (hw1.2 c1 (hw1_eq ▸ List.mem_cons_self c1 w1'))
  have e1 : (strip line).takeWhile isIpChar = ip := by
    rw [heq]
    apply takeWhile_append_stop hip.2
    rw [hw1_eq, List.cons_append]
    exact List.takeWhile_cons_of_neg (by simp [hc1])
  have e2 : (strip line).dropWhile isIpChar =
      w1 ++ '-' :: (w2 ++ '[' :: (date ++ ']' ::
        (w3 ++ (reqLit ++ (w4 ++ (st ++ (w5 ++ (sz ++ rest)))))))) := by
    rw [heq]
    apply dropWhile_append_stop hip.2
    rw [hw1_eq, List.cons_append]
    exact List.dropWhile_cons_of_neg (by simp [hc1])
  simp only [parseLine, e1, e2]
  rw [if_neg hip.1]
  exact afterIp_complete _ hw1 hw2
    (findClose_complete _ hnl (tryTail_complete rest hw3 hw4 hst hw5 hsz))

end LogStats

/-- C3: for every finite sequence of input lines, after all lines are
processed the accumulated total byte size equals the sum of the
byte-size field over exactly the lines that match the grammar;
`byteOf` is the size field of an accepted line and zero for a line the
grammar rejects. -/
theorem C3_total_bytes (lines : List (List Char)) :
    (LogStats.runEof LogStats.initState lines).1.total_size =
      (lines.map LogStats.byteOf).sum := by
  rw [LogStats.runEof_total_size]
  simp [LogStats.initState]

/-- C8: a line the parser rejects leaves the whole aggregate state
unchanged and produces no report; `process_line` is a total function,
so no exception can escape it. -/
theorem C8_malformed_no_change (st : LogStats.AggState) (l : List Char)
    (h : LogStats.parseLine l = none) :
    LogStats.process_line st l = (st, []) := by
  simp [LogStats.process_line, h]

/-- Witness for C8 at the concrete malformed line `"garbage line"`. -/
theorem C8_malformed_no_change_witness :
    LogStats.parseLine LogStats.sampleBad = none ∧
      LogStats.process_line LogStats.initState LogStats.sampleBad =
        (LogStats.initState, []) :=
  ⟨by decide, C8_malformed_no_change LogStats.initState LogStats.sampleBad (by decide)⟩

/-- C9: every metric is a natural number (hence non-negative) and never
decreases across one `process_line` step, and after any sequence of
lines the accepted-line counter equals the number of grammar-matching
lines, whatever their status codes. -/
theorem C9_invariants :
    (∀ (st : LogStats.AggState) (l : List Char),
        st.total_size ≤ (LogStats.process_line st l).1.total_size ∧
        st.line_count ≤ (LogStats.process_line st l).1.line_count ∧
        ∀ c, LogStats.lookupCount st.status_codes c ≤
          LogStats.lookupCount (LogStats.process_line st l).1.status_codes c) ∧
    ∀ lines, (LogStats.runEof LogStats.initState lines).1.line_count =
      LogStats.acceptedCount lines := by
  constructor
  · intro st l
    refine ⟨?_, ?_, ?_⟩
    · rw [LogStats.process_line_total]; omega
    · rw [LogStats.process_line_count]; split <;> omega
    · intro c
      rw [LogStats.process_line_codes]
      cases h : LogStats.parseLine l with
      | none => simp
      | some r =>
        simp only
        split
        · exact LogStats.lookupCount_bump_le _ _ _
        · exact Nat.le_refl _
  · intro lines
    rw [LogStats.runEof_line_count]
    simp [LogStats.initState]

/-- C5: for every parsed record the byte size is added to the total and
the accepted-line counter is incremented unconditionally; the
per-status-code counter is incremented only for whitelisted codes, the
map is left untouched for any other code, and a non-whitelisted code
never acquires an entry, so it cannot appear in any report. -/
theorem C5_whitelist_asymmetry :
    (∀ (st : LogStats.AggState) (l : List Char) (r : Nat × Nat),
        LogStats.parseLine l = some r →
        (LogStats.process_line st l).1.total_size = st.total_size + r.2 ∧
        (LogStats.process_line st l).1.line_count = st.line_count + 1 ∧
        (r.1 ∈ LogStats.valid_codes →
          LogStats.lookupCount (LogStats.process_line st l).1.status_codes r.1 =
            LogStats.lookupCount st.status_codes r.1 + 1) ∧
        (r.1 ∉ LogStats.valid_codes →
          (LogStats.process_line st l).1.status_codes = st.status_codes)) ∧
    ∀ (lines : List (List Char)) (c : Nat), c ∉ LogStats.valid_codes →
      LogStats.lookupCount
        (LogStats.runEof LogStats.initState lines).1.status_codes c = 0 := by
  constructor
  · intro st l r h
    refine ⟨?_, ?_, ?_, ?_⟩
    · rw [LogStats.process_line_fst_of_some st h]; rfl
    · rw [LogStats.process_line_fst_of_some st h]; rfl
    · intro hmem
      rw [LogStats.process_line_fst_of_some st h]
      simp [LogStats.applyRecord, hmem, LogStats.lookupCount_bump_self]
    · intro hmem
      rw [LogStats.process_line_fst_of_some st h]
      simp [LogStats.applyRecord, hmem]
  · intro lines c hc
    apply LogStats.lookupCount_eq_zero_of_not_mem
    intro hmem
    obtain ⟨p, hp, hpc⟩ := List.mem_map.mp hmem
    have hgood := LogStats.goodMap_runEof lines LogStats.initState LogStats.goodMap_init
    exact hc (hpc ▸ (hgood.2 p hp).1)

/-- Witness for C5 at a concrete line with status code 999 and size 50:
the byte total grows by 50, the line counter by one, and code 999 never
gets an entry. -/
theorem C5_whitelist_asymmetry_witness :
    LogStats.parseLine LogStats.sample999 = some (999, 50) ∧
      (LogStats.process_line LogStats.initState LogStats.sample999).1.total_size =
        LogStats.initState.total_size + 50 ∧
      LogStats.lookupCount
        (LogStats.runEof LogStats.initState [LogStats.sample999]).1.status_codes 999 = 0 :=
  ⟨by decide,
    (C5_whitelist_asymmetry.1 LogStats.initState LogStats.sample999 (999, 50) (by decide)).1,
    C5_whitelist_asymmetry.2 [LogStats.sample999] 999 (by decide)⟩

/-- C7 counterexample: at the empty aggregate state the report actually
printed is ["", "File size: 0"]: its first line is the blank line that
the leading newline of the f-string produces, not the file-size line,
so the report does not consist of the file-size line followed by the
status-code lines as the claim states. -/
theorem C7_report_counterexample : ¬ LogStats.SpecRendered LogStats.initState := by
  rintro ⟨codes, _, _, heq⟩
  have h0 : LogStats.print_stats LogStats.initState = ["", "File size: 0"] := by decide
  rw [h0] at heq
  injection heq with h1 h2
  exact absurd h1 (by decide)

/-- C7 amended: for every aggregate state reached by a run, the rendered
report is a blank separator line (from the leading newline), then the
file-size line, then one line per status code with positive count, in
strictly ascending numeric order; codes with zero count are omitted. -/
theorem C7_report_format_amended (lines : List (List Char)) :
    ∃ codes : List Nat,
      codes.Pairwise (fun a b => a < b) ∧
      (∀ c, c ∈ codes ↔ 0 < LogStats.lookupCount
        (LogStats.runEof LogStats.initState lines).1.status_codes c) ∧
      LogStats.print_stats (LogStats.runEof LogStats.initState lines).1 =
        "" :: ("File size: " ++
            toString (LogStats.runEof LogStats.initState lines).1.total_size) ::
          codes.map (fun c => toString c ++ ": " ++
            toString (LogStats.lookupCount
              (LogStats.runEof LogStats.initState lines).1.status_codes c)) := by
  have hgood := LogStats.goodMap_runEof lines LogStats.initState LogStats.goodMap_init
  refine ⟨((((LogStats.runEof LogStats.initState lines).1.status_codes.map
      Prod.fst).insertionSort (fun a b => a ≤ b)).filter
      (fun c => decide (0 < LogStats.lookupCount
        (LogStats.runEof LogStats.initState lines).1.status_codes c))), ?_, ?_, rfl⟩
  · have hs := List.sorted_insertionSort (fun a b => a ≤ b)
      ((LogStats.runEof LogStats.initState lines).1.status_codes.map Prod.fst)
    have hp := List.perm_insertionSort (fun a b => a ≤ b)
      ((LogStats.runEof LogStats.initState lines).1.status_codes.map Prod.fst)
    have hnd := hp.nodup_iff.mpr hgood.1
    exact ((hs.and hnd).imp (fun hab => lt_of_le_of_ne hab.1 hab.2)).filter _
  · intro c
    rw [List.mem_filter, List.mem_insertionSort, decide_eq_true_eq]
    constructor
    · exact fun h => h.2
    · intro h
      exact ⟨(LogStats.goodMap_mem_iff_pos hgood c).mpr h, h⟩

/-- C6: the reports a run prints are exactly one report immediately
after each line that is accepted and brings the accepted-line count to
a multiple of 10, and no report at any other point; rejected lines do
not advance the cadence, which counts accepted lines only. -/
theorem C6_periodic_cadence (lines : List (List Char)) :
    (LogStats.runEof LogStats.initState lines).2 =
      (List.range lines.length).filterMap (fun j =>
        if ((LogStats.parseLine (lines.getD j [])).isSome = true) ∧
            LogStats.acceptedCount (lines.take (j + 1)) % 10 = 0 then
          some (LogStats.print_stats
            (LogStats.runEof LogStats.initState (lines.take (j + 1))).1)
        else none) := by
  rw [LogStats.runEof_reports]
  congr 1
  funext j
  have h0 : LogStats.initState.line_count = 0 := rfl
  rw [h0, Nat.zero_add]

/-- C1 counterexample: a run that accepts one record and then reaches
natural end of input prints no report at all, because `main` returns
from the stdin loop without calling `print_stats`; the claimed
unconditional final report on the end-of-input path does not exist. -/
theorem C1_counterexample :
    LogStats.parseLine LogStats.sampleValid = some (200, 100) ∧
      (LogStats.runEof LogStats.initState [LogStats.sampleValid]).1.line_count = 1 ∧
      (LogStats.runEof LogStats.initState [LogStats.sampleValid]).2 = [] := by
  refine ⟨by decide, by decide, by decide⟩

/-- C1 amended: after an interrupt exactly one final report is printed
(by the handler, appended after the periodic reports of the executed
statement prefix), while after natural end-of-input the run's output is
exactly the periodic reports of the full statement trace, with no final
report. -/
theorem C1_final_report_amended :
    (∀ lines : List (List Char),
        (LogStats.runEof LogStats.initState lines).2 =
          (LogStats.runMicros LogStats.initState (LogStats.microTrace lines)).2) ∧
    ∀ (lines : List (List Char)) (k : Nat),
      (LogStats.interruptRun lines k).2 =
        (LogStats.runMicros LogStats.initState ((LogStats.microTrace lines).take k)).2 ++
          [LogStats.print_stats
            (LogStats.runMicros LogStats.initState ((LogStats.microTrace lines).take k)).1] := by
  constructor
  · intro lines
    rw [LogStats.runMicros_trace]
  · intro lines k
    rfl

/-- C2 counterexample: interrupting the run after the first statement of
the update block for an accepted record (status 200, size 100) makes the
handler print a report that already counts the record under `200:` but
not yet in the byte total, and the observed state matches neither the
state before the record nor the state after it: a partially applied
record contributes to the final report. -/
theorem C2_counterexample :
    LogStats.parseLine LogStats.sampleValid = some (200, 100) ∧
      (LogStats.interruptRun [LogStats.sampleValid] 1).2 =
        [["", "File size: 0", "200: 1"]] ∧
      (LogStats.interruptRun [LogStats.sampleValid] 1).1 ≠
        (LogStats.runEof LogStats.initState []).1 ∧
      (LogStats.interruptRun [LogStats.sampleValid] 1).1 ≠
        (LogStats.runEof LogStats.initState [LogStats.sampleValid]).1 := by
  refine ⟨by decide, by decide, by decide, by decide⟩

/-- C2 amended: the interrupt-triggered report observes exactly the
state produced by the statements executed before the handler ran; when
the interrupt is delivered at a record boundary (after the first `j`
lines are fully processed) that state is precisely the fully-applied
aggregate of those lines, so no partial record contributes there — but
an interrupt inside the update block can expose a partial record. -/
theorem C2_interrupt_boundary_amended (lines : List (List Char)) (j : Nat) :
    (LogStats.interruptRun lines (LogStats.microPrefixLen lines j)).1 =
      (LogStats.runEof LogStats.initState (lines.take j)).1 := by
  show (LogStats.runMicros LogStats.initState
      ((LogStats.microTrace lines).take (LogStats.microPrefixLen lines j))).1 = _
  rw [LogStats.microTrace_take, LogStats.runMicros_trace]

/-- C4 counterexample: the pattern is applied with `re.match`, which
anchors only at the start, so a line carrying arbitrary trailing
content after the byte-size field is still accepted; that line does not
consist of the grammar's token sequence alone (it does not even end in
a digit), refuting the claimed "only if" direction. -/
theorem C4_counterexample :
    (LogStats.parseLine LogStats.sampleTrailing).isSome = true ∧
      ¬ LogStats.SpecConsists LogStats.sampleTrailing := by
  refine ⟨by decide, ?_⟩
  rintro ⟨ip, w1, w2, date, w3, w4, st, w5, sz, _, _, _, _, _, _, _, _, hsz, heq⟩
  rcases List.eq_nil_or_concat sz with hn | ⟨L, b, hb⟩
  · exact hsz.1 hn
  · have hdig : LogStats.isPyDigit b = true := by
      apply hsz.2 b
      rw [hb, List.concat_eq_append]
      exact List.mem_append_right L (List.mem_singleton_self b)
    have hA : ∃ A : List Char, LogStats.sampleTrailing = A ++ [b] := by
      rw [heq, hb]
      exact ⟨ip ++ (w1 ++ '-' :: (w2 ++ '[' :: (date ++ ']' ::
        (w3 ++ (LogStats.reqLit ++ (w4 ++ (st ++ (w5 ++ L)))))))),
        by simp [List.concat_eq_append]⟩
    obtain ⟨A, hA⟩ := hA
    have hlast : LogStats.sampleTrailing.getLast? = some b := by
      rw [hA]; exact List.getLast?_concat A
    have hz : LogStats.sampleTrailing.getLast? = some 'z' := by decide
    rw [hz] at hlast
    injection hlast with hb2
    rw [← hb2] at hdig
    exact absurd hdig (by decide)

/-- C4 amended: the parser accepts a line if and only if, after
stripping surrounding whitespace, a PREFIX of the line matches the
token sequence - an IP-shaped token (digits and dots), whitespace, the
dash, whitespace, a bracketed newline-free token, whitespace, the exact
request literal, whitespace, a digit run (status), whitespace, and a
digit run (size); anything after the size digits is ignored, because
`re.match` does not anchor at the end of the line. -/
theorem C4_grammar_amended (line : List Char) :
    (∃ r, LogStats.parseLine line = some r) ↔
      LogStats.MatchPrefix (LogStats.strip line) := by
  constructor
  · rintro ⟨r, hr⟩
    exact LogStats.parseLine_sound hr
  · intro h
    cases hp : LogStats.parseLine line with
    | none => exact absurd hp (LogStats.parseLine_complete h)
    | some r => exact ⟨r, rfl⟩

/-- Witness for C4 at the concrete valid line: the acceptance computed
by the parser transports to the grammar decomposition and back. -/
theorem C4_grammar_amended_witness :
    LogStats.MatchPrefix (LogStats.strip LogStats.sampleValid) :=
  (C4_grammar_amended LogStats.sampleValid).mp ⟨(200, 100), by decide⟩

/-- C10: the IP field is not structurally validated: any nonempty run
of digits and dots (for example "..." or "1.2.3.4.5.6"), followed by
the rest of the required grammar, is accepted as a valid record. -/
theorem C10_ip_not_validated (ip : List Char) (h1 : ip ≠ [])
    (h2 : ∀ c ∈ ip, LogStats.isIpChar c = true) :
    LogStats.parseLine (ip ++ LogStats.stdRest) = some (200, 100) := by
  obtain ⟨c, ip', hip_eq⟩ := List.exists_cons_of_ne_nil h1
  have hC : LogStats.isIpChar c = true := h2 c (hip_eq ▸ List.mem_cons_self c ip')
  have hcs : LogStats.isPySpace c = false := LogStats.ip_not_space hC
  have hs : LogStats.strip (ip ++ LogStats.stdRest) = ip ++ LogStats.stdRest := by
    apply LogStats.strip_eq_self
    · rw [hip_eq, List.cons_append]
      exact List.takeWhile_cons_of_neg (by simp [hcs])
    · rw [List.reverse_append]
      rfl
  have e1 : (ip ++ LogStats.stdRest).takeWhile LogStats.isIpChar = ip :=
    LogStats.takeWhile_append_stop h2 rfl
  have e2 : (ip ++ LogStats.stdRest).dropWhile LogStats.isIpChar = LogStats.stdRest :=
    LogStats.dropWhile_append_stop h2 rfl
  simp only [LogStats.parseLine, hs, e1, e2]
  rw [if_neg h1]
  decide

/-- Witness for C10 at the dot-only token "...": the line is accepted
although its first field is no IP address at all. -/
theorem C10_ip_not_validated_witness :
    LogStats.parseLine ("...".toList ++ LogStats.stdRest) = some (200, 100) :=
  C10_ip_not_validated ("...".toList) (by decide) (by decide)
